import Mathlib

/-!
Verification of the typed serialization-tree layer of `ser-sled`.

The development shallowly embeds the code of `src/lib.rs`, `src/bincode_tree.rs`,
`src/serde_tree.rs` and `src/error.rs`:

* bytes are `List Nat` (each entry a byte value);
* the underlying sled tree is an association list from key bytes to value bytes
  (`Store`), with the operations the library requires from sled (`get`,
  `insert` returning the previous value, `remove`, `pop_max`, `len`,
  `contains_key`) modelled as pure state-passing functions;
* the bincode codec configured by `BINCODE_CONFIG`
  (`bincode::config::standard().with_big_endian()`) is external crate code.
  Its behaviour on unsigned 64-bit integers is modelled from the spec and from
  bincode's documented variable-length integer format: values below 251 are a
  single byte, otherwise a one-byte width discriminant (251 for u16, 252 for
  u32, 253 for u64) followed by the fixed-width big-endian bytes;
* fallible operations return `Except SerSledError`; mutating tree operations
  return the result paired with the store state after the call, so that a state
  change on an error path is observable (sled performs the write before the
  wrapper decodes).
-/

set_option autoImplicit false

namespace SerSled

/-- Byte strings: each element is one byte value. -/
abbrev Bytes := List Nat

/-- Lexicographic strict comparison of byte strings, as Rust's `Ord` on byte
slices (which is the order sled keys are stored in): compare elementwise,
a strict prefix is smaller. -/
def lexLt : Bytes → Bytes → Bool
  | [], [] => false
  | [], _ :: _ => true
  | _ :: _, [] => false
  | a :: as, b :: bs =>
    if a < b then true
    else if b < a then false
    else lexLt as bs

/-- Big-endian bytes of `n`, `w` bytes wide (the fixed-width payload that
bincode's big-endian configuration writes after a width discriminant). -/
def beBytes : Nat → Nat → Bytes
  | 0, _ => []
  | w + 1, n => (n / 256 ^ w) :: beBytes w (n % 256 ^ w)

/-- Read `w` big-endian bytes from the front of a byte string, accumulating
into `acc`; `none` if fewer than `w` bytes remain. -/
def readBeAux : Nat → Nat → Bytes → Option (Nat × Bytes)
  | 0, acc, bs => some (acc, bs)
  | _ + 1, _, [] => none
  | w + 1, acc, b :: bs => readBeAux w (acc * 256 + b) bs

/-- Read a `w`-byte big-endian integer from the front of a byte string. -/
def readBe (w : Nat) (bs : Bytes) : Option (Nat × Bytes) :=
  readBeAux w 0 bs

/-- Modelled from the spec: the bincode codec (external crate, configured as
`bincode::config::standard().with_big_endian()` in `src/lib.rs` and
`src/bincode_tree.rs`) on an unsigned 64-bit integer.  Bincode's variable-length
unsigned integer format: a value below 251 is that single byte; otherwise a
width discriminant byte (251 = u16, 252 = u32, 253 = u64) followed by the value
in fixed-width big-endian bytes. -/
def encodeU64 (n : Nat) : Bytes :=
  if n < 251 then [n]
  else if n < 2 ^ 16 then 251 :: beBytes 2 n
  else if n < 2 ^ 32 then 252 :: beBytes 4 n
  else 253 :: beBytes 8 n

/-- Modelled from the spec: bincode decoding of an unsigned 64-bit integer from
the front of a byte string, returning the value and the remaining bytes.
Discriminants 254 (u128) and 255 (reserved) do not decode as u64. -/
def decodeU64 : Bytes → Option (Nat × Bytes)
  | [] => none
  | b :: rest =>
    if b < 251 then some (b, rest)
    else if b = 251 then readBe 2 rest
    else if b = 252 then readBe 4 rest
    else if b = 253 then readBe 8 rest
    else none

/-- Modelled from the spec: `bincode::serde::decode_borrowed_from_slice` for a
u64 — decode an integer from the front of the slice, yielding the value. -/
def decodeU64Borrowed (bs : Bytes) : Option Nat :=
  (decodeU64 bs).map Prod.fst

/-! ## Store model

An association list from key bytes to value bytes models one sled tree (the
code's `inner_tree : sled::Tree`).  sled keeps at most one entry per key;
theorems that need that fact take a `nodupKeys` hypothesis. -/

/-- The byte content of one sled tree: key bytes paired with value bytes. -/
abbrev Store := List (Bytes × Bytes)

/-- `sled::Tree::get`: value bytes stored under exactly these key bytes. -/
def storeGet (k : Bytes) : Store → Option Bytes
  | [] => none
  | (k', v) :: rest => if k' = k then some v else storeGet k rest

/-- `sled::Tree::insert`: upsert, returning the previous value bytes (if any)
and the tree afterwards. -/
def storeInsert (k v : Bytes) : Store → Option Bytes × Store
  | [] => (none, [(k, v)])
  | (k', v') :: rest =>
    if k' = k then (some v', (k, v) :: rest)
    else ((storeInsert k v rest).1, (k', v') :: (storeInsert k v rest).2)

/-- `sled::Tree::remove`: delete the entry under these key bytes, returning the
previous value bytes (if any) and the tree afterwards. -/
def storeRemove (k : Bytes) : Store → Option Bytes × Store
  | [] => (none, [])
  | (k', v') :: rest =>
    if k' = k then (some v', rest)
    else ((storeRemove k rest).1, (k', v') :: (storeRemove k rest).2)

/-- The key bytes present in a tree. -/
def storeKeys (s : Store) : List Bytes := s.map Prod.fst

/-- sled's invariant: one entry per key. -/
def nodupKeys (s : Store) : Prop := (storeKeys s).Nodup

/-- The entry with the lexicographically greatest key bytes. -/
def maxEntry : Store → Option (Bytes × Bytes)
  | [] => none
  | e :: rest =>
    match maxEntry rest with
    | none => some e
    | some m => if lexLt e.1 m.1 then some m else some e

/-- `sled::Tree::pop_max`: remove and return the entry with the greatest key. -/
def storePopMax (s : Store) : Option (Bytes × Bytes) × Store :=
  match maxEntry s with
  | some e => (some e, (storeRemove e.1 s).2)
  | none => (none, s)

/-! ## Errors (`src/error.rs`) -/

/-- Abstract stand-in for `sled::Error` (I/O failure, corruption). -/
inductive SledError
  | ioFault
  | corruption
  deriving DecidableEq, Repr

/-- `SerialiserError` of `src/error.rs`, bincode variant. -/
inductive SerialiserError
  | bincodeEncodeError
  | bincodeDecodeError
  deriving DecidableEq, Repr

/-- `SerSledError` of `src/error.rs`. -/
inductive SerSledError
  | sledError (e : SledError)
  | serialiserError (e : SerialiserError)
  | illegalOperation
  deriving DecidableEq, Repr

/-- Shorthand for the error a failed bincode decode converts into. -/
def decodeFailure : SerSledError :=
  SerSledError.serialiserError SerialiserError.bincodeDecodeError

/-! ## The relaxed bincode tree (`src/bincode_tree.rs`)

Keys and values are u64 integers (`Nat` below, with `< 2 ^ 64` hypotheses
where the u64 range matters), run through the modelled bincode codec.
Mutating operations return the result paired with the store afterwards; the
sled write happens before the wrapper decodes, so the error branches still
carry the updated store. -/

/-- `RelaxedBincodeTree::get` (`src/bincode_tree.rs:46`): encode the key, look
the bytes up, decode the value bytes if present. -/
def treeGet (s : Store) (k : Nat) : Except SerSledError (Option Nat) :=
  match storeGet (encodeU64 k) s with
  | some resIvec =>
    match decodeU64Borrowed resIvec with
    | some deser => Except.ok (some deser)
    | none => Except.error decodeFailure
  | none => Except.ok none

/-- `RelaxedBincodeTree::insert` (`src/bincode_tree.rs:64`): encode key and
value, upsert the bytes, decode the previous value bytes (if any) at the
inserted value's type. -/
def treeInsert (s : Store) (k v : Nat) : Except SerSledError (Option Nat) × Store :=
  match storeInsert (encodeU64 k) (encodeU64 v) s with
  | (some ivec, s') =>
    match decodeU64Borrowed ivec with
    | some oldValue => (Except.ok (some oldValue), s')
    | none => (Except.error decodeFailure, s')
  | (none, s') => (Except.ok none, s')

/-- `RelaxedBincodeTree::remove` (`src/bincode_tree.rs:199`): encode the key,
remove the entry, decode the removed value bytes (if any). -/
def treeRemove (s : Store) (k : Nat) : Except SerSledError (Option Nat) × Store :=
  match storeRemove (encodeU64 k) s with
  | (some resIvec, s') =>
    match decodeU64Borrowed resIvec with
    | some deser => (Except.ok (some deser), s')
    | none => (Except.error decodeFailure, s')
  | (none, s') => (Except.ok none, s')

/-- `RelaxedBincodeTree::contains_key` (`src/bincode_tree.rs:170`). -/
def treeContainsKey (s : Store) (k : Nat) : Except SerSledError Bool :=
  Except.ok (storeGet (encodeU64 k) s).isSome

/-- `RelaxedBincodeTree::len` (`src/bincode_tree.rs:195`). -/
def treeLen (s : Store) : Nat :=
  s.length

/-- `RelaxedBincodeTree::pop_max` (`src/bincode_tree.rs:176`): pop the entry
with the greatest key bytes, decode both sides. -/
def treePopMax (s : Store) : Except SerSledError (Option (Nat × Nat)) × Store :=
  match storePopMax s with
  | (some (keyIvec, valueIvec), s') =>
    match decodeU64Borrowed keyIvec with
    | some key =>
      match decodeU64Borrowed valueIvec with
      | some value => (Except.ok (some (key, value)), s')
      | none => (Except.error decodeFailure, s')
    | none => (Except.error decodeFailure, s')
  | (none, s') => (Except.ok none, s')

/-- `RelaxedBincodeTree::get_or_init` (`src/bincode_tree.rs:216`): `get`, and
on a miss compute the init value, insert it (discarding the previous-value
result but propagating its error) and return it. -/
def treeGetOrInit (s : Store) (k : Nat) (initFunc : Unit → Nat) :
    Except SerSledError (Option Nat) × Store :=
  match treeGet s k with
  | Except.error e => (Except.error e, s)
  | Except.ok (some v) => (Except.ok (some v), s)
  | Except.ok none =>
    match treeInsert s k (initFunc ()) with
    | (Except.error e, s') => (Except.error e, s')
    | (Except.ok _, s') => (Except.ok (some (initFunc ())), s')

/-! ## Iteration (`iter`, `range`, `range_key_bytes`)

The sled iterator yields `Result<(IVec, IVec), sled::Error>` items; the
wrappers `filter_map` over it.  The item list below is the sequence the
underlying sled iterator produces, and each function is the `filter_map`
closure of the corresponding source function, generic over the requested
key/value decoders exactly as the source is generic over `K` and `V`. -/

/-- The `filter_map` closure of `RelaxedBincodeTree::iter`
(`src/bincode_tree.rs:121`, shared by the post-translation part of `range`,
`src/bincode_tree.rs:252`): decode both sides; keep the pair when both decode,
drop the item on any decode failure and on an underlying-store error. -/
def iterFilterMap {κ υ : Type} (dk : Bytes → Option κ) (dv : Bytes → Option υ)
    (items : List (Except SledError (Bytes × Bytes))) : List (κ × υ) :=
  items.filterMap (fun res =>
    match res with
    | Except.ok (keyIvec, valueIvec) =>
      match dk keyIvec, dv valueIvec with
      | some key, some value => some (key, value)
      | _, _ => none
    | Except.error _ => none)

/-- The `filter_map` closure of `RelaxedBincodeTree::range_key_bytes`
(`src/bincode_tree.rs:144`): keep the raw key bytes, decode only the value. -/
def rangeKeyBytesFilterMap {υ : Type} (dv : Bytes → Option υ)
    (items : List (Except SledError (Bytes × Bytes))) : List (Bytes × υ) :=
  items.filterMap (fun res =>
    match res with
    | Except.ok (keyIvec, valueIvec) =>
      match dv valueIvec with
      | some value => some (keyIvec, value)
      | _ => none
    | Except.error _ => none)

/-- `RelaxedBincodeTree::get` as run against a fallible underlying store: the
sled call `self.inner_tree.get(bytes)?` can report an I/O error, which the `?`
converts into `SerSledError::SledError` and returns.  `tryGet` is the
underlying store's response function. -/
def treeGetFallible (tryGet : Bytes → Except SledError (Option Bytes))
    (k : Nat) : Except SerSledError (Option Nat) :=
  match tryGet (encodeU64 k) with
  | Except.error e => Except.error (SerSledError.sledError e)
  | Except.ok (some resIvec) =>
    match decodeU64Borrowed resIvec with
    | some deser => Except.ok (some deser)
    | none => Except.error decodeFailure
  | Except.ok none => Except.ok none

/-! ## Range bounds (`RelaxedBincodeTree::range`, `src/bincode_tree.rs:233`) -/

/-- `std::ops::Bound`. -/
inductive RBound (α : Type)
  | unbounded
  | included (a : α)
  | excluded (a : α)
  deriving DecidableEq, Repr

/-- The bound-shape-preserving map the spec describes: replace a present
bound's value by its image, leave unbounded bounds untouched. -/
def mapBound {α β : Type} (f : α → β) : RBound α → RBound β
  | RBound.unbounded => RBound.unbounded
  | RBound.included a => RBound.included (f a)
  | RBound.excluded a => RBound.excluded (f a)

/-- The value carried by a present bound. -/
def boundValue {α : Type} : RBound α → Option α
  | RBound.unbounded => none
  | RBound.included a => some a
  | RBound.excluded a => some a

/-- One `match` arm block of `RelaxedBincodeTree::range`
(`src/bincode_tree.rs:241` and `:246`): encode the value of a present bound,
keeping the bound constructor; `?` propagates an encode failure.  Generic over
the key encoder exactly as the source is generic over `K: Serialize`. -/
def translateBound {α : Type} (enc : α → Except SerSledError Bytes) :
    RBound α → Except SerSledError (RBound Bytes)
  | RBound.included r =>
    match enc r with
    | Except.ok bs => Except.ok (RBound.included bs)
    | Except.error e => Except.error e
  | RBound.excluded r =>
    match enc r with
    | Except.ok bs => Except.ok (RBound.excluded bs)
    | Except.error e => Except.error e
  | RBound.unbounded => Except.ok RBound.unbounded

/-- The bound-translation part of `RelaxedBincodeTree::range`: translate the
start bound, then the end bound, failing as a whole if either fails. -/
def translateRange {α : Type} (enc : α → Except SerSledError Bytes)
    (startBound endBound : RBound α) :
    Except SerSledError (RBound Bytes × RBound Bytes) :=
  match translateBound enc startBound with
  | Except.error e => Except.error e
  | Except.ok startBytes =>
    match translateBound enc endBound with
    | Except.error e => Except.error e
    | Except.ok endBytes => Except.ok (startBytes, endBytes)

/-! ## Serializer-mode registry (`src/lib.rs`) -/

/-- The reserved configuration key `CONFIGUATION_TREE_KEY`
(`src/lib.rs:26`, the bytes of `b"_ser-sled_serialiser"`). -/
def CONFIGUATION_TREE_KEY : Bytes :=
  [95, 115, 101, 114, 45, 115, 108, 101, 100, 95,
   115, 101, 114, 105, 97, 108, 105, 115, 101, 114]

/-- `SerialiserMode` (`src/lib.rs:29`); only the bincode variant is compiled. -/
inductive SerialiserMode
  | BINCODE
  deriving DecidableEq, Repr

/-- `impl AsRef<[u8]> for SerialiserMode` (`src/lib.rs:35`). -/
def SerialiserMode.asRef : SerialiserMode → Bytes
  | SerialiserMode.BINCODE => [0]

/-- `SerSledDb::new_from_config_or_else` (`src/lib.rs:52`): read the reserved
key; a first byte `0` selects the persisted bincode mode; any other content
(unrecognized first byte, or empty bytes) and an absent key cause the caller's
requested mode to be written to the reserved key and used.  Returns the
serializer mode of the handle and the store afterwards. -/
def new_from_config_or_else (sledDb : Store) (serMode : SerialiserMode) :
    SerialiserMode × Store :=
  match storeGet CONFIGUATION_TREE_KEY sledDb with
  | some bytes =>
    match bytes.head? with
    | some 0 => (SerialiserMode.BINCODE, sledDb)
    | some _ =>
      (serMode, (storeInsert CONFIGUATION_TREE_KEY serMode.asRef sledDb).2)
    | none =>
      (serMode, (storeInsert CONFIGUATION_TREE_KEY serMode.asRef sledDb).2)
  | none =>
    (serMode, (storeInsert CONFIGUATION_TREE_KEY serMode.asRef sledDb).2)

/-! ## Basic lemmas about the byte-level codec -/

theorem beBytes_length (w n : Nat) : (beBytes w n).length = w := by
  induction w generalizing n with
  | zero => rfl
  | succ w ih => simp [beBytes, ih]

theorem readBeAux_beBytes (w : Nat) :
    ∀ (n acc : Nat) (rest : Bytes), n < 256 ^ w →
      readBeAux w acc (beBytes w n ++ rest) = some (acc * 256 ^ w + n, rest) := by
  induction w with
  | zero =>
    intro n acc rest hn
    have : n = 0 := by simpa using Nat.lt_one_iff.mp (by simpa using hn)
    simp [beBytes, readBeAux, this]
  | succ w ih =>
    intro n acc rest hn
    have hmod : n % 256 ^ w < 256 ^ w := Nat.mod_lt _ (Nat.pos_pow_of_pos w (by norm_num))
    simp only [beBytes, List.cons_append, List.append_eq, readBeAux]
    rw [ih (n % 256 ^ w) (acc * 256 + n / 256 ^ w) rest hmod]
    have hdm := Nat.div_add_mod n (256 ^ w)
    congr 2
    calc (acc * 256 + n / 256 ^ w) * 256 ^ w + n % 256 ^ w
        = acc * (256 ^ w * 256) + (256 ^ w * (n / 256 ^ w) + n % 256 ^ w) := by ring
      _ = acc * 256 ^ (w + 1) + n := by rw [hdm, pow_succ]

theorem readBe_beBytes (w n : Nat) (rest : Bytes) (hn : n < 256 ^ w) :
    readBe w (beBytes w n ++ rest) = some (n, rest) := by
  rw [readBe, readBeAux_beBytes w n 0 rest hn]
  simp

/-- Round-trip of the fixed-width big-endian layer. -/
theorem readBe_beBytes_nil (w n : Nat) (hn : n < 256 ^ w) :
    readBe w (beBytes w n) = some (n, []) := by
  have := readBe_beBytes w n [] hn
  simpa using this

/-- Big-endian fixed-width encoding preserves the order of integers under
lexicographic byte comparison. -/
theorem beBytes_lexLt (w : Nat) :
    ∀ a b : Nat, a < b → b < 256 ^ w →
      lexLt (beBytes w a) (beBytes w b) = true := by
  induction w with
  | zero =>
    intro a b hab hb
    simp at hb
    omega
  | succ w ih =>
    intro a b hab hb
    have hqle : a / 256 ^ w ≤ b / 256 ^ w := Nat.div_le_div_right (Nat.le_of_lt hab)
    simp only [beBytes, lexLt]
    rcases Nat.lt_or_ge (a / 256 ^ w) (b / 256 ^ w) with hq | hq
    · rw [if_pos hq]
    · have hqeq : a / 256 ^ w = b / 256 ^ w := Nat.le_antisymm hqle hq
      have hda := Nat.div_add_mod a (256 ^ w)
      have hdb := Nat.div_add_mod b (256 ^ w)
      rw [hqeq] at hda
      have hmlt : a % 256 ^ w < b % 256 ^ w := by omega
      have hbmod : b % 256 ^ w < 256 ^ w :=
        Nat.mod_lt _ (Nat.pos_pow_of_pos w (by norm_num))
      rw [if_neg (by omega), if_neg (by omega)]
      exact ih (a % 256 ^ w) (b % 256 ^ w) hmlt hbmod

/-- Round-trip of the modelled codec at the step level: decoding the encoding
of any u64 value consumes exactly the encoding and returns the value. -/
theorem decodeU64_encodeU64 (n : Nat) (hn : n < 2 ^ 64) :
    decodeU64 (encodeU64 n) = some (n, []) := by
  unfold encodeU64
  split_ifs with h1 h2 h3
  · simp [decodeU64, h1]
  · simp only [decodeU64]
    rw [if_neg (by omega)]
    simpa using readBe_beBytes_nil 2 n (by norm_num; omega)
  · simp only [decodeU64]
    rw [if_neg (by omega)]
    simpa using readBe_beBytes_nil 4 n (by norm_num; omega)
  · simp only [decodeU64]
    rw [if_neg (by omega)]
    simpa using readBe_beBytes_nil 8 n (by norm_num; omega)

theorem decodeU64Borrowed_encodeU64 (n : Nat) (hn : n < 2 ^ 64) :
    decodeU64Borrowed (encodeU64 n) = some n := by
  rw [decodeU64Borrowed, decodeU64_encodeU64 n hn]
  rfl

/-- The modelled codec is injective on the u64 range. -/
theorem encodeU64_injective (a b : Nat) (ha : a < 2 ^ 64) (hb : b < 2 ^ 64)
    (h : encodeU64 a = encodeU64 b) : a = b := by
  have := decodeU64_encodeU64 a ha
  rw [h, decodeU64_encodeU64 b hb] at this
  simpa using this.symm

/-! ## Lemmas about the store model -/

theorem storeInsert_fst (k v : Bytes) (s : Store) :
    (storeInsert k v s).1 = storeGet k s := by
  induction s with
  | nil => rfl
  | cons e rest ih =>
    obtain ⟨k', v'⟩ := e
    by_cases h : k' = k
    · simp [storeInsert, storeGet, h]
    · simp [storeInsert, storeGet, h, ih]

theorem storeGet_insert_self (k v : Bytes) (s : Store) :
    storeGet k (storeInsert k v s).2 = some v := by
  induction s with
  | nil => simp [storeInsert, storeGet]
  | cons e rest ih =>
    obtain ⟨k', v'⟩ := e
    by_cases h : k' = k
    · simp [storeInsert, storeGet, h]
    · simp [storeInsert, storeGet, h, ih]

theorem storeGet_insert_other (k k' v : Bytes) (s : Store) (h : k' ≠ k) :
    storeGet k' (storeInsert k v s).2 = storeGet k' s := by
  have hne : k ≠ k' := fun he => h he.symm
  induction s with
  | nil => simp [storeInsert, storeGet, hne]
  | cons e rest ih =>
    obtain ⟨k0, v0⟩ := e
    by_cases h0 : k0 = k
    · subst h0
      simp [storeInsert, storeGet, hne]
    · by_cases h1 : k0 = k'
      · subst h1
        simp [storeInsert, storeGet, h0, h]
      · simp [storeInsert, storeGet, h0, h1, ih]

theorem storeRemove_fst (k : Bytes) (s : Store) :
    (storeRemove k s).1 = storeGet k s := by
  induction s with
  | nil => rfl
  | cons e rest ih =>
    obtain ⟨k', v'⟩ := e
    by_cases h : k' = k
    · simp [storeRemove, storeGet, h]
    · simp [storeRemove, storeGet, h, ih]

theorem storeGet_remove_other (k k' : Bytes) (s : Store) (h : k' ≠ k) :
    storeGet k' (storeRemove k s).2 = storeGet k' s := by
  induction s with
  | nil => rfl
  | cons e rest ih =>
    obtain ⟨k0, v0⟩ := e
    by_cases h0 : k0 = k
    · subst h0
      have hne : k0 ≠ k' := fun he => h he.symm
      simp [storeRemove, storeGet, hne]
    · by_cases h1 : k0 = k'
      · subst h1
        simp [storeRemove, storeGet, h0, h]
      · simp [storeRemove, storeGet, h0, h1, ih]

theorem storeGet_eq_none_of_not_mem (k : Bytes) (s : Store)
    (h : k ∉ storeKeys s) : storeGet k s = none := by
  induction s with
  | nil => rfl
  | cons e rest ih =>
    obtain ⟨k', v'⟩ := e
    simp only [storeKeys, List.map_cons, List.mem_cons] at h
    push_neg at h
    have hne : k' ≠ k := fun he => h.1 he.symm
    simp only [storeGet]
    rw [if_neg hne]
    exact ih (by simpa [storeKeys] using h.2)

theorem storeGet_remove_self (k : Bytes) (s : Store) (h : nodupKeys s) :
    storeGet k (storeRemove k s).2 = none := by
  induction s with
  | nil => rfl
  | cons e rest ih =>
    obtain ⟨k', v'⟩ := e
    have hnd : (storeKeys rest).Nodup ∧ k' ∉ storeKeys rest := by
      have h' := h
      simp only [nodupKeys, storeKeys, List.map_cons, List.nodup_cons] at h'
      exact ⟨h'.2, h'.1⟩
    by_cases h0 : k' = k
    · subst h0
      simp only [storeRemove, if_pos rfl]
      exact storeGet_eq_none_of_not_mem k' rest hnd.2
    · simp only [storeRemove, storeGet]
      rw [if_neg h0]
      simp only [storeGet]
      rw [if_neg h0]
      exact ih hnd.1

theorem storeRemove_length (k : Bytes) (s : Store) (h : k ∈ storeKeys s) :
    (storeRemove k s).2.length + 1 = s.length := by
  induction s with
  | nil => simp [storeKeys] at h
  | cons e rest ih =>
    obtain ⟨k', v'⟩ := e
    by_cases h0 : k' = k
    · simp [storeRemove, h0]
    · have hk : k ∈ storeKeys rest := by
        simp only [storeKeys, List.map_cons, List.mem_cons] at h
        rcases h with h | h
        · exact absurd h.symm h0
        · simpa [storeKeys] using h
      simp only [storeRemove]
      rw [if_neg h0]
      simpa using ih hk

/-! ## Order lemmas about lexicographic comparison -/

theorem lexLt_asymm : ∀ a b : Bytes, lexLt a b = true → lexLt b a = false := by
  intro a
  induction a with
  | nil =>
    intro b _
    cases b <;> rfl
  | cons x xs ih =>
    intro b hab
    cases b with
    | nil => simp [lexLt] at hab
    | cons y ys =>
      simp only [lexLt] at hab ⊢
      split_ifs with h1 h2 <;> split_ifs at hab with h3 h4 <;>
        first
          | rfl
          | omega
          | (exact ih ys hab)
          | (simp at hab)

theorem lexLt_neg_trans :
    ∀ a b c : Bytes, lexLt a b = false → lexLt b c = false → lexLt a c = false := by
  intro a
  induction a with
  | nil =>
    intro b c hab hbc
    cases b with
    | nil =>
      cases c with
      | nil => rfl
      | cons z zs => simp [lexLt] at hbc
    | cons y ys => simp [lexLt] at hab
  | cons x xs ih =>
    intro b c hab hbc
    cases b with
    | nil =>
      cases c with
      | nil => rfl
      | cons z zs => simp [lexLt] at hbc
    | cons y ys =>
      cases c with
      | nil => rfl
      | cons z zs =>
        simp only [lexLt] at hab hbc ⊢
        split_ifs with h1 h2 <;>
          split_ifs at hab with h3 h4 <;>
          split_ifs at hbc with h5 h6 <;>
          first
            | rfl
            | omega
            | (exact ih ys zs hab hbc)
            | (simp at hab)
            | (simp at hbc)

/-! ## Lemmas about the maximal entry -/

theorem lexLt_irrefl (a : Bytes) : lexLt a a = false := by
  cases hl : lexLt a a
  · rfl
  · have := lexLt_asymm _ _ hl
    rw [this] at hl
    exact absurd hl (by simp)

theorem maxEntry_cons_none (e : Bytes × Bytes) (rest : Store)
    (hm : maxEntry rest = none) : maxEntry (e :: rest) = some e := by
  simp [maxEntry, hm]

theorem maxEntry_cons_some (e m : Bytes × Bytes) (rest : Store)
    (hm : maxEntry rest = some m) :
    maxEntry (e :: rest) = if lexLt e.1 m.1 then some m else some e := by
  simp [maxEntry, hm]

theorem maxEntry_eq_none (rest : Store) (hm : maxEntry rest = none) :
    rest = [] := by
  cases rest with
  | nil => rfl
  | cons r rs =>
    exfalso
    cases h : maxEntry rs with
    | none =>
      rw [maxEntry_cons_none r rs h] at hm
      exact Option.noConfusion hm
    | some m =>
      rw [maxEntry_cons_some r m rs h] at hm
      split_ifs at hm <;> exact Option.noConfusion hm

theorem maxEntry_isSome (s : Store) (h : s ≠ []) : (maxEntry s).isSome = true := by
  cases hm : maxEntry s with
  | none => exact absurd (maxEntry_eq_none s hm) h
  | some m => rfl

theorem maxEntry_mem (s : Store) (e : Bytes × Bytes) (h : maxEntry s = some e) :
    e ∈ s := by
  induction s generalizing e with
  | nil => simp [maxEntry] at h
  | cons e0 rest ih =>
    cases hm : maxEntry rest with
    | none =>
      rw [maxEntry_cons_none e0 rest hm] at h
      simp at h
      simp [h]
    | some m =>
      rw [maxEntry_cons_some e0 m rest hm] at h
      split_ifs at h with h0
      · obtain rfl := Option.some.inj h
        exact List.mem_cons_of_mem _ (ih m hm)
      · obtain rfl := Option.some.inj h
        simp

theorem maxEntry_max (s : Store) (e : Bytes × Bytes) (h : maxEntry s = some e) :
    ∀ x ∈ s, lexLt e.1 x.1 = false := by
  induction s generalizing e with
  | nil => simp [maxEntry] at h
  | cons e0 rest ih =>
    intro x hx
    cases hm : maxEntry rest with
    | none =>
      rw [maxEntry_cons_none e0 rest hm] at h
      obtain rfl := Option.some.inj h
      have hrest := maxEntry_eq_none rest hm
      subst hrest
      rcases List.mem_cons.mp hx with hx | hx
      · subst hx
        exact lexLt_irrefl _
      · simp at hx
    | some m =>
      rw [maxEntry_cons_some e0 m rest hm] at h
      split_ifs at h with h0
      · obtain rfl := Option.some.inj h
        rcases List.mem_cons.mp hx with hx | hx
        · subst hx
          exact lexLt_asymm _ _ h0
        · exact ih m hm x hx
      · obtain rfl := Option.some.inj h
        have hnot : lexLt e0.1 m.1 = false := by
          cases hl : lexLt e0.1 m.1
          · rfl
          · exact absurd hl h0
        rcases List.mem_cons.mp hx with hx | hx
        · subst hx
          exact lexLt_irrefl _
        · exact lexLt_neg_trans _ _ _ hnot (ih m hm x hx)

theorem lexLt_cons_lt {x y : Nat} (xs ys : Bytes) (h : x < y) :
    lexLt (x :: xs) (y :: ys) = true := by
  simp [lexLt, h]

theorem lexLt_cons_eq {x : Nat} (xs ys : Bytes) :
    lexLt (x :: xs) (x :: ys) = lexLt xs ys := by
  simp [lexLt]

/-- Order preservation of the full modelled codec: the one-byte class (values
below 251) sorts below the discriminants 251, 252 and 253, the discriminants
increase with the width class, and within a class the big-endian payload
preserves numeric order. -/
theorem encodeU64_lexLt (a b : Nat) (hab : a < b) (hb : b < 2 ^ 64) :
    lexLt (encodeU64 a) (encodeU64 b) = true := by
  by_cases ha1 : a < 251
  · have ea : encodeU64 a = [a] := by
      rw [encodeU64, if_pos (by omega)]
    by_cases hb1 : b < 251
    · have eb : encodeU64 b = [b] := by
        rw [encodeU64, if_pos (by omega)]
      rw [ea, eb]
      exact lexLt_cons_lt _ _ hab
    · by_cases hb2 : b < 2 ^ 16
      · have eb : encodeU64 b = 251 :: beBytes 2 b := by
          rw [encodeU64, if_neg (by omega), if_pos (by omega)]
        rw [ea, eb]
        exact lexLt_cons_lt _ _ (by omega)
      · by_cases hb3 : b < 2 ^ 32
        · have eb : encodeU64 b = 252 :: beBytes 4 b := by
            rw [encodeU64, if_neg (by omega), if_neg (by omega), if_pos (by omega)]
          rw [ea, eb]
          exact lexLt_cons_lt _ _ (by omega)
        · have eb : encodeU64 b = 253 :: beBytes 8 b := by
            rw [encodeU64, if_neg (by omega), if_neg (by omega), if_neg (by omega)]
          rw [ea, eb]
          exact lexLt_cons_lt _ _ (by omega)
  · by_cases ha2 : a < 2 ^ 16
    · have ea : encodeU64 a = 251 :: beBytes 2 a := by
        rw [encodeU64, if_neg (by omega), if_pos (by omega)]
      have hb1 : ¬ b < 251 := by omega
      by_cases hb2 : b < 2 ^ 16
      · have eb : encodeU64 b = 251 :: beBytes 2 b := by
          rw [encodeU64, if_neg (by omega), if_pos (by omega)]
        rw [ea, eb, lexLt_cons_eq]
        exact beBytes_lexLt 2 a b hab (by norm_num; omega)
      · by_cases hb3 : b < 2 ^ 32
        · have eb : encodeU64 b = 252 :: beBytes 4 b := by
            rw [encodeU64, if_neg (by omega), if_neg (by omega), if_pos (by omega)]
          rw [ea, eb]
          exact lexLt_cons_lt _ _ (by omega)
        · have eb : encodeU64 b = 253 :: beBytes 8 b := by
            rw [encodeU64, if_neg (by omega), if_neg (by omega), if_neg (by omega)]
          rw [ea, eb]
          exact lexLt_cons_lt _ _ (by omega)
    · by_cases ha3 : a < 2 ^ 32
      · have ea : encodeU64 a = 252 :: beBytes 4 a := by
          rw [encodeU64, if_neg (by omega), if_neg (by omega), if_pos (by omega)]
        have hb1 : ¬ b < 251 := by omega
        have hb2 : ¬ b < 2 ^ 16 := by omega
        by_cases hb3 : b < 2 ^ 32
        · have eb : encodeU64 b = 252 :: beBytes 4 b := by
            rw [encodeU64, if_neg (by omega), if_neg (by omega), if_pos (by omega)]
          rw [ea, eb, lexLt_cons_eq]
          exact beBytes_lexLt 4 a b hab (by norm_num; omega)
        · have eb : encodeU64 b = 253 :: beBytes 8 b := by
            rw [encodeU64, if_neg (by omega), if_neg (by omega), if_neg (by omega)]
          rw [ea, eb]
          exact lexLt_cons_lt _ _ (by omega)
      · have ea : encodeU64 a = 253 :: beBytes 8 a := by
          rw [encodeU64, if_neg (by omega), if_neg (by omega), if_neg (by omega)]
        have hb1 : ¬ b < 251 := by omega
        have hb2 : ¬ b < 2 ^ 16 := by omega
        have hb3 : ¬ b < 2 ^ 32 := by omega
        have eb : encodeU64 b = 253 :: beBytes 8 b := by
          rw [encodeU64, if_neg (by omega), if_neg (by omega), if_neg (by omega)]
        rw [ea, eb, lexLt_cons_eq]
        exact beBytes_lexLt 8 a b hab (by norm_num; omega)

/-! ## Lemmas about the tree operations -/

/-- The store after `insert` is the store after the underlying byte upsert,
whether or not decoding the previous value succeeded. -/
theorem treeInsert_snd (s : Store) (k v : Nat) :
    (treeInsert s k v).2 = (storeInsert (encodeU64 k) (encodeU64 v) s).2 := by
  unfold treeInsert
  rcases hsi : storeInsert (encodeU64 k) (encodeU64 v) s with ⟨old, s2⟩
  cases old with
  | none => simp
  | some ob => cases hd : decodeU64Borrowed ob <;> simp [hd]

/-- The store after `remove` is the store after the underlying byte removal,
whether or not decoding the removed value succeeded. -/
theorem treeRemove_snd (s : Store) (k : Nat) :
    (treeRemove s k).2 = (storeRemove (encodeU64 k) s).2 := by
  unfold treeRemove
  rcases hsr : storeRemove (encodeU64 k) s with ⟨old, s2⟩
  cases old with
  | none => simp
  | some ob => cases hd : decodeU64Borrowed ob <;> simp [hd]

/-- `insert`'s previous-value result decodes the same bytes `get` would
return: the two agree. -/
theorem treeInsert_fst (s : Store) (k v : Nat) :
    (treeInsert s k v).1 = treeGet s k := by
  have hfst := storeInsert_fst (encodeU64 k) (encodeU64 v) s
  unfold treeInsert treeGet
  rcases hsi : storeInsert (encodeU64 k) (encodeU64 v) s with ⟨old, s2⟩
  rw [hsi] at hfst
  simp at hfst
  subst hfst
  cases hsg : storeGet (encodeU64 k) s with
  | none => simp
  | some ob => cases hd : decodeU64Borrowed ob <;> simp [hd]

/-! ## Claims -/

/-- C2: for every value the bincode encode function succeeds on (every u64),
decoding the bytes produced by encoding it yields the value back:
`decode(encode(v)) == v`. -/
theorem claim2_roundtrip (v : Nat) (hv : v < 2 ^ 64) :
    decodeU64Borrowed (encodeU64 v) = some v :=
  decodeU64Borrowed_encodeU64 v hv

theorem claim2_roundtrip_witness :
    decodeU64Borrowed (encodeU64 123456) = some 123456 :=
  claim2_roundtrip 123456 (by norm_num)

/-- C3: for all unsigned integers `a < b` (in the u64 range), the encoded
bytes of `a` compare strictly below the encoded bytes of `b` under
lexicographic byte comparison, despite the variable-length integer encoding:
width-discriminant bytes (251, 252, 253) are larger than every single-byte
value (at most 250) and increase with the width class, and the big-endian
payload preserves order within a class. -/
theorem claim3_order_preservation (a b : Nat) (hab : a < b) (hb : b < 2 ^ 64) :
    lexLt (encodeU64 a) (encodeU64 b) = true :=
  encodeU64_lexLt a b hab hb

theorem claim3_order_preservation_witness :
    lexLt (encodeU64 250) (encodeU64 70000) = true :=
  claim3_order_preservation 250 70000 (by norm_num) (by norm_num)

/-- C4: after a successful `insert(k, v1)`, `get(k)` returns `Ok(Some(v1))`;
this persists across an `insert` of a different key and a `remove` of a
different key; a subsequent `insert(k, v2)` returns `Ok(Some(v1))` as the
previous value; and `get(k)` afterwards returns `Ok(Some(v2))`. -/
theorem claim4_insert_get_overwrite
    (s : Store) (k v1 v2 w k2 k3 : Nat) (old : Option Nat)
    (hk : k < 2 ^ 64) (hv1 : v1 < 2 ^ 64) (hv2 : v2 < 2 ^ 64)
    (hw : w < 2 ^ 64) (hk2 : k2 < 2 ^ 64) (hk3 : k3 < 2 ^ 64)
    (hfirst : (treeInsert s k v1).1 = Except.ok old)
    (hne2 : k2 ≠ k) (hne3 : k3 ≠ k) :
    treeGet (treeInsert s k v1).2 k = Except.ok (some v1)
    ∧ treeGet (treeInsert (treeInsert s k v1).2 k2 w).2 k = Except.ok (some v1)
    ∧ treeGet (treeRemove (treeInsert s k v1).2 k3).2 k = Except.ok (some v1)
    ∧ (treeInsert (treeInsert s k v1).2 k v2).1 = Except.ok (some v1)
    ∧ treeGet (treeInsert (treeInsert s k v1).2 k v2).2 k = Except.ok (some v2) := by
  have hkb2 : encodeU64 k ≠ encodeU64 k2 :=
    fun h => hne2 (encodeU64_injective k k2 hk hk2 h).symm
  have hkb3 : encodeU64 k ≠ encodeU64 k3 :=
    fun h => hne3 (encodeU64_injective k k3 hk hk3 h).symm
  have hget1 : storeGet (encodeU64 k) (treeInsert s k v1).2 = some (encodeU64 v1) := by
    rw [treeInsert_snd, storeGet_insert_self]
  have ha : treeGet (treeInsert s k v1).2 k = Except.ok (some v1) := by
    rw [treeGet, hget1]
    simp [decodeU64Borrowed_encodeU64 v1 hv1]
  refine ⟨ha, ?_, ?_, ?_, ?_⟩
  · rw [treeGet, treeInsert_snd (treeInsert s k v1).2 k2 w,
      storeGet_insert_other (encodeU64 k2) (encodeU64 k) (encodeU64 w) _ hkb2,
      hget1]
    simp [decodeU64Borrowed_encodeU64 v1 hv1]
  · rw [treeGet, treeRemove_snd (treeInsert s k v1).2 k3,
      storeGet_remove_other (encodeU64 k3) (encodeU64 k) _ hkb3,
      hget1]
    simp [decodeU64Borrowed_encodeU64 v1 hv1]
  · rw [treeInsert_fst, treeGet, hget1]
    simp [decodeU64Borrowed_encodeU64 v1 hv1]
  · rw [treeGet, treeInsert_snd (treeInsert s k v1).2 k v2, storeGet_insert_self]
    simp [decodeU64Borrowed_encodeU64 v2 hv2]

theorem claim4_insert_get_overwrite_witness :
    treeGet (treeInsert [] 1 10).2 1 = Except.ok (some 10)
    ∧ treeGet (treeInsert (treeInsert [] 1 10).2 2 30).2 1 = Except.ok (some 10)
    ∧ treeGet (treeRemove (treeInsert [] 1 10).2 3).2 1 = Except.ok (some 10)
    ∧ (treeInsert (treeInsert [] 1 10).2 1 20).1 = Except.ok (some 10)
    ∧ treeGet (treeInsert (treeInsert [] 1 10).2 1 20).2 1 = Except.ok (some 20) :=
  claim4_insert_get_overwrite [] 1 10 20 30 2 3 none
    (by norm_num) (by norm_num) (by norm_num) (by norm_num) (by norm_num)
    (by norm_num) (by rfl) (by norm_num) (by norm_num)

/-- C9: whenever `get_or_init` returns `Ok(r)`, `r` is `Some`: a successful
call yields either the existing decoded value or the freshly inserted init
value, never `Ok(None)`. -/
theorem claim9_get_or_init_some (s : Store) (k : Nat) (initFunc : Unit → Nat)
    (r : Option Nat) (h : (treeGetOrInit s k initFunc).1 = Except.ok r) :
    r.isSome = true := by
  unfold treeGetOrInit at h
  cases hg : treeGet s k with
  | error e =>
    rw [hg] at h
    simp at h
  | ok o =>
    cases o with
    | some v =>
      rw [hg] at h
      simp at h
      rw [← h]
      rfl
    | none =>
      rw [hg] at h
      rcases hi : treeInsert s k (initFunc ()) with ⟨res, s2⟩
      rw [hi] at h
      cases res with
      | error e => simp at h
      | ok o2 =>
        simp at h
        rw [← h]
        rfl

theorem claim9_get_or_init_some_witness : (some 7 : Option Nat).isSome = true :=
  claim9_get_or_init_some [] 1 (fun _ => 7) (some 7) (by rfl)

/-- C10: removing a key whose stored value bytes do not decode returns a
decode error, yet the entry has already been deleted from the underlying
store — the state changes even though an error is returned. -/
theorem claim10_remove_error_still_removes
    (s : Store) (k : Nat) (vb : Bytes)
    (hnd : nodupKeys s)
    (hpresent : storeGet (encodeU64 k) s = some vb)
    (hbad : decodeU64Borrowed vb = none) :
    (treeRemove s k).1 = Except.error decodeFailure
    ∧ storeGet (encodeU64 k) (treeRemove s k).2 = none := by
  constructor
  · have hfst := storeRemove_fst (encodeU64 k) s
    unfold treeRemove
    rcases hsr : storeRemove (encodeU64 k) s with ⟨o, s2⟩
    rw [hsr] at hfst
    simp at hfst
    rw [hpresent] at hfst
    subst hfst
    simp [hbad]
  · rw [treeRemove_snd]
    exact storeGet_remove_self _ _ hnd

theorem claim10_remove_error_still_removes_witness :
    (treeRemove [(encodeU64 1, [251])] 1).1 = Except.error decodeFailure
    ∧ storeGet (encodeU64 1) (treeRemove [(encodeU64 1, [251])] 1).2 = none :=
  claim10_remove_error_still_removes [(encodeU64 1, [251])] 1 [251]
    (by simp [nodupKeys, storeKeys]) (by rfl) (by rfl)

/-- C8: on a non-empty tree whose keys are canonical u64 encodings (the bytes
the library itself writes) and whose value bytes decode, `pop_max` returns the
pair whose encoded key is lexicographically largest, `len` afterwards has
decreased by exactly one, and `contains_key` on that key afterwards is false;
on the empty tree `pop_max` returns `Ok(None)`, not an error. -/
theorem claim8_pop_max :
    (∀ s : Store, s ≠ [] → nodupKeys s →
      (∀ e ∈ s, ∃ m, m < 2 ^ 64 ∧ e.1 = encodeU64 m) →
      (∀ e ∈ s, (decodeU64Borrowed e.2).isSome = true) →
      ∃ k v s2, treePopMax s = (Except.ok (some (k, v)), s2)
        ∧ (∃ vb, (encodeU64 k, vb) ∈ s ∧ decodeU64Borrowed vb = some v)
        ∧ (∀ e ∈ s, lexLt (encodeU64 k) e.1 = false)
        ∧ treeLen s2 + 1 = treeLen s
        ∧ treeContainsKey s2 k = Except.ok false)
    ∧ treePopMax [] = (Except.ok none, []) := by
  constructor
  · intro s hne hnd hcanon hdec
    cases hmax : maxEntry s with
    | none => exact absurd (maxEntry_eq_none s hmax) hne
    | some kv =>
      obtain ⟨kb, vb⟩ := kv
      have hmem : (kb, vb) ∈ s := maxEntry_mem s _ hmax
      obtain ⟨m, hm64, hkb⟩ := hcanon _ hmem
      simp only at hkb
      have hkdec : decodeU64Borrowed kb = some m := by
        rw [hkb]
        exact decodeU64Borrowed_encodeU64 m hm64
      obtain ⟨v, hv⟩ := Option.isSome_iff_exists.mp (hdec _ hmem)
      refine ⟨m, v, (storeRemove kb s).2, ?_, ?_, ?_, ?_, ?_⟩
      · unfold treePopMax storePopMax
        rw [hmax]
        simp [hkdec, hv]
      · exact ⟨vb, by rw [← hkb]; exact hmem, hv⟩
      · intro e he
        rw [← hkb]
        exact maxEntry_max s _ hmax e he
      · have hkmem : kb ∈ storeKeys s := List.mem_map_of_mem Prod.fst hmem
        simpa [treeLen] using storeRemove_length kb s hkmem
      · unfold treeContainsKey
        rw [← hkb, storeGet_remove_self kb s hnd]
        rfl
  · rfl

theorem claim8_pop_max_witness :
    ∃ k v s2,
      treePopMax [(encodeU64 1, encodeU64 10), (encodeU64 2, encodeU64 20),
          (encodeU64 4, encodeU64 40)]
        = (Except.ok (some (k, v)), s2)
      ∧ (∃ vb, (encodeU64 k, vb) ∈ [(encodeU64 1, encodeU64 10),
            (encodeU64 2, encodeU64 20), (encodeU64 4, encodeU64 40)]
          ∧ decodeU64Borrowed vb = some v)
      ∧ (∀ e ∈ [(encodeU64 1, encodeU64 10), (encodeU64 2, encodeU64 20),
            (encodeU64 4, encodeU64 40)], lexLt (encodeU64 k) e.1 = false)
      ∧ treeLen s2 + 1
          = treeLen [(encodeU64 1, encodeU64 10), (encodeU64 2, encodeU64 20),
              (encodeU64 4, encodeU64 40)]
      ∧ treeContainsKey s2 k = Except.ok false :=
  claim8_pop_max.1
    [(encodeU64 1, encodeU64 10), (encodeU64 2, encodeU64 20),
      (encodeU64 4, encodeU64 40)]
    (by simp)
    (by simp [nodupKeys, storeKeys]; decide)
    (by
      intro e he
      simp only [List.mem_cons] at he
      rcases he with rfl | rfl | rfl | he
      · exact ⟨1, by norm_num, rfl⟩
      · exact ⟨2, by norm_num, rfl⟩
      · exact ⟨4, by norm_num, rfl⟩
      · simp at he)
    (by
      intro e he
      simp only [List.mem_cons] at he
      rcases he with rfl | rfl | rfl | he
      · rfl
      · rfl
      · rfl
      · simp at he)

/-- C1 (counterexample): with the reserved key holding the unrecognized byte
value `[1]`, reopening rewrites the reserved key to the caller mode's tag
`[0]` — the key is not left untouched, contradicting "never rewrites the
reserved key ... regardless of the byte value stored". -/
theorem claim1_counterexample :
    storeGet CONFIGUATION_TREE_KEY
        (new_from_config_or_else [(CONFIGUATION_TREE_KEY, [1])]
          SerialiserMode.BINCODE).2
      = some [0]
    ∧ (some [0] : Option Bytes) ≠ some [1] := by
  constructor
  · rfl
  · simp

/-- C1 (amended): once the reserved key holds a recognized mode tag (first
byte `0`), reopening never rewrites it — the store is returned unchanged —
and the handle's serializer mode is the persisted bincode mode, regardless of
the mode the caller requested and of any bytes following the tag byte. -/
theorem claim1_persisted_mode_wins (db : Store) (bytes : Bytes)
    (mode : SerialiserMode)
    (hstored : storeGet CONFIGUATION_TREE_KEY db = some bytes)
    (htag : bytes.head? = some 0) :
    new_from_config_or_else db mode = (SerialiserMode.BINCODE, db) := by
  unfold new_from_config_or_else
  rw [hstored]
  simp [htag]

theorem claim1_persisted_mode_wins_witness :
    new_from_config_or_else [(CONFIGUATION_TREE_KEY, [0, 99])]
        SerialiserMode.BINCODE
      = (SerialiserMode.BINCODE, [(CONFIGUATION_TREE_KEY, [0, 99])]) :=
  claim1_persisted_mode_wins [(CONFIGUATION_TREE_KEY, [0, 99])] [0, 99]
    SerialiserMode.BINCODE (by rfl) (by rfl)

/-- C5 (counterexample): an underlying-store error reported by the sled
iterator is silently swallowed by `iter`'s `filter_map` closure — the output
contains no error and iteration continues past the faulty item. -/
theorem claim5_counterexample :
    iterFilterMap decodeU64Borrowed decodeU64Borrowed
        [Except.error SledError.ioFault, Except.ok (encodeU64 1, encodeU64 2)]
      = [(1, 2)] := by
  rfl

/-- C5 (amended): single-item operations propagate underlying-store errors —
`get` returns the sled error wrapped in `SerSledError::SledError` — but the
bulk iteration operations `iter`, `range` and `range_key_bytes` silently skip
items on which the underlying iterator reports an error and continue with the
remaining items, surfacing no error. -/
theorem claim5_error_propagation_amended :
    (∀ (tryGet : Bytes → Except SledError (Option Bytes)) (k : Nat)
        (e : SledError),
      tryGet (encodeU64 k) = Except.error e →
      treeGetFallible tryGet k = Except.error (SerSledError.sledError e))
    ∧ (∀ (e : SledError) (items : List (Except SledError (Bytes × Bytes))),
        iterFilterMap decodeU64Borrowed decodeU64Borrowed
            (Except.error e :: items)
          = iterFilterMap decodeU64Borrowed decodeU64Borrowed items)
    ∧ (∀ (e : SledError) (items : List (Except SledError (Bytes × Bytes))),
        rangeKeyBytesFilterMap decodeU64Borrowed (Except.error e :: items)
          = rangeKeyBytesFilterMap decodeU64Borrowed items) := by
  refine ⟨?_, ?_, ?_⟩
  · intro tryGet k e h
    unfold treeGetFallible
    rw [h]
  · intro e items
    simp [iterFilterMap]
  · intro e items
    simp [rangeKeyBytesFilterMap]

theorem claim5_amended_witness :
    treeGetFallible (fun _ => Except.error SledError.ioFault) 3
      = Except.error (SerSledError.sledError SledError.ioFault)
    ∧ iterFilterMap decodeU64Borrowed decodeU64Borrowed
        [Except.error SledError.corruption, Except.ok (encodeU64 5, encodeU64 6)]
      = iterFilterMap decodeU64Borrowed decodeU64Borrowed
          [Except.ok (encodeU64 5, encodeU64 6)]
    ∧ rangeKeyBytesFilterMap decodeU64Borrowed [Except.error SledError.ioFault]
      = rangeKeyBytesFilterMap decodeU64Borrowed [] :=
  ⟨claim5_error_propagation_amended.1 _ 3 SledError.ioFault rfl,
   claim5_error_propagation_amended.2.1 SledError.corruption _,
   claim5_error_propagation_amended.2.2 SledError.ioFault _⟩

/-- C6: iteration yields exactly the entries whose key bytes decode at the
requested key type and whose value bytes decode at the requested value type,
in the underlying byte order; an entry failing either decode is skipped
without producing an error, and a decodable entry is kept. -/
theorem claim6_iter_skips_undecodable {κ υ : Type} (dk : Bytes → Option κ)
    (dv : Bytes → Option υ) :
    (iterFilterMap dk dv [] = [])
    ∧ (∀ (kb vb : Bytes) (rest : List (Except SledError (Bytes × Bytes))),
        dk kb = none ∨ dv vb = none →
        iterFilterMap dk dv (Except.ok (kb, vb) :: rest)
          = iterFilterMap dk dv rest)
    ∧ (∀ (kb vb : Bytes) (k : κ) (v : υ)
        (rest : List (Except SledError (Bytes × Bytes))),
        dk kb = some k → dv vb = some v →
        iterFilterMap dk dv (Except.ok (kb, vb) :: rest)
          = (k, v) :: iterFilterMap dk dv rest) := by
  refine ⟨rfl, ?_, ?_⟩
  · intro kb vb rest h
    rcases h with h | h
    · simp [iterFilterMap, h]
    · cases hk : dk kb <;> simp [iterFilterMap, hk, h]
  · intro kb vb k v rest h1 h2
    simp [iterFilterMap, h1, h2]

theorem claim6_iter_skips_undecodable_witness :
    iterFilterMap decodeU64Borrowed decodeU64Borrowed
        [Except.ok (encodeU64 1, encodeU64 10), Except.ok (encodeU64 2, [251])]
      = [(1, 10)] := by
  rw [(claim6_iter_skips_undecodable decodeU64Borrowed decodeU64Borrowed).2.2
        (encodeU64 1) (encodeU64 10) 1 10 _ (by rfl) (by rfl),
      (claim6_iter_skips_undecodable decodeU64Borrowed decodeU64Borrowed).2.1
        (encodeU64 2) [251] _ (Or.inr rfl),
      (claim6_iter_skips_undecodable decodeU64Borrowed decodeU64Borrowed).1]

/-- C7: the bound translation used by `range` maps each bound to the same
bound shape with the value replaced by its encoded bytes, passes unbounded
bounds through untouched (it never calls the encoder on them — the first
conjunct holds for an arbitrary, even always-failing, encoder), and fails as
a whole whenever encoding the value of either present bound fails, producing
no partial range. -/
theorem claim7_bound_translation {α : Type}
    (enc : α → Except SerSledError Bytes) :
    (translateRange enc RBound.unbounded RBound.unbounded
        = Except.ok (RBound.unbounded, RBound.unbounded))
    ∧ (∀ (f : α → Bytes) (sb tb : RBound α), (∀ x, enc x = Except.ok (f x)) →
        translateRange enc sb tb = Except.ok (mapBound f sb, mapBound f tb))
    ∧ (∀ (sb tb : RBound α) (a : α) (e : SerSledError),
        (boundValue sb = some a ∧ enc a = Except.error e
          ∨ boundValue tb = some a ∧ enc a = Except.error e) →
        ∃ e2, translateRange enc sb tb = Except.error e2) := by
  refine ⟨rfl, ?_, ?_⟩
  · intro f sb tb hok
    have hb : ∀ u : RBound α, translateBound enc u = Except.ok (mapBound f u) := by
      intro u
      cases u with
      | unbounded => rfl
      | included a => simp [translateBound, mapBound, hok a]
      | excluded a => simp [translateBound, mapBound, hok a]
    simp [translateRange, hb]
  · intro sb tb a e h
    rcases h with ⟨hv, he⟩ | ⟨hv, he⟩
    · cases sb with
      | unbounded => simp [boundValue] at hv
      | included b =>
        obtain rfl : b = a := by simpa [boundValue] using hv
        exact ⟨e, by simp [translateRange, translateBound, he]⟩
      | excluded b =>
        obtain rfl : b = a := by simpa [boundValue] using hv
        exact ⟨e, by simp [translateRange, translateBound, he]⟩
    · cases hs : translateBound enc sb with
      | error e2 => exact ⟨e2, by simp [translateRange, hs]⟩
      | ok sbb =>
        have ht : translateBound enc tb = Except.error e := by
          cases tb with
          | unbounded => simp [boundValue] at hv
          | included b =>
            obtain rfl : b = a := by simpa [boundValue] using hv
            simp [translateBound, he]
          | excluded b =>
            obtain rfl : b = a := by simpa [boundValue] using hv
            simp [translateBound, he]
        exact ⟨e, by simp [translateRange, hs, ht]⟩

theorem claim7_bound_translation_witness :
    translateRange (fun n : Nat => Except.ok [n])
        (RBound.included 1) (RBound.excluded 2)
      = Except.ok (RBound.included [1], RBound.excluded [2])
    ∧ (∃ e2, translateRange
        (fun _ : Nat =>
          (Except.error (SerSledError.serialiserError
            SerialiserError.bincodeEncodeError) : Except SerSledError Bytes))
        (RBound.included 3) RBound.unbounded = Except.error e2)
    ∧ translateRange
        (fun _ : Nat =>
          (Except.error (SerSledError.serialiserError
            SerialiserError.bincodeEncodeError) : Except SerSledError Bytes))
        RBound.unbounded RBound.unbounded
      = Except.ok (RBound.unbounded, RBound.unbounded) :=
  ⟨(claim7_bound_translation _).2.1 (fun n => [n]) _ _ (fun _ => rfl),
   (claim7_bound_translation _).2.2 (RBound.included 3) RBound.unbounded 3 _
      (Or.inl ⟨rfl, rfl⟩),
   (claim7_bound_translation _).1⟩

end SerSled
